import Mathlib

/-!
Verification of the clipboard-history manager (Go repository
phaneendra24/Clipboard-Manager) against its natural-language specification.

The development shallowly embeds the history engine:

* `storage` package (`src/unnamed/part_004`): `ClipboardData`,
  `SaveClipboardData` (with its pin-preserving trim), `LoadClipboardData`,
  `TogglePin`.  Go strings are Lean `String`s; the Go
  `map[string]bool` is an association list `List (String × Bool)` whose
  lookup defaults to `false`, exactly like a Go map read; the on-disk JSON
  file is abstracted as a `StoredFile` value (new structured format, legacy
  bare list, or corrupt bytes), since the claims only concern the data that
  crosses the file boundary, not the byte encoding.
* `daemon` package (`src/unnamed/part_003`, the `ClipboardData` variant of
  `Run`): the per-tick ingest step, lines 48-77.
* the search code of the Fyne UI (`src/unnamed/part_000`): `fuzzyMatch`
  (lines 189-233) and `applyFilter` (lines 236-274).  Go lowercases with
  `strings.ToLower` and then indexes bytes; the embedding works on the
  character list `lowerChars s`, which coincides with the byte view on
  ASCII data.  `sort.Slice` only guarantees that its output is a
  permutation of its input that is sorted for the supplied comparator; the
  embedding realizes that contract with an insertion sort by the same
  comparator `(·.score > ·.score)`, and every ranking theorem proved below
  depends only on strict score inequalities, which every
  comparator-sorted permutation orders identically.

`maxHistory` is the Go package variable `storage.MaxHistory` (default 500,
clamped by the config loader to the range 10..10000), kept as an explicit
parameter.
-/

namespace ClipMgr

/-- Go struct `storage.ClipboardData`: ordered history (most recent first)
plus the pinned map. -/
structure ClipboardData where
  History : List String
  Pinned : List (String × Bool)
deriving DecidableEq, Repr

/-- Reading a Go `map[string]bool`: value of the first binding of the key,
`false` when absent. -/
def mapLookup (m : List (String × Bool)) (k : String) : Bool :=
  match m.find? (fun p => p.1 == k) with
  | some p => p.2
  | none => false

/-- Go `delete(m, k)`. -/
def mapDelete (m : List (String × Bool)) (k : String) :
    List (String × Bool) :=
  m.filter (fun p => p.1 != k)

/-- Go map assignment `m[k] = v`.  A Go map is unordered, so the
association list represents it only up to permutation of distinct keys;
storing the fresh binding in front of the remaining ones is one faithful
representative. -/
def mapInsert (m : List (String × Bool)) (k : String) (v : Bool) :
    List (String × Bool) :=
  (k, v) :: mapDelete m k

/-- The durable history file, abstracted from its JSON byte encoding:
either the structured record `{history, pinned}`, the legacy bare list of
strings, or unparseable bytes. -/
inductive StoredFile where
  | newFormat (history : List String) (pinned : List (String × Bool))
  | legacy (history : List String)
  | corrupt
deriving DecidableEq, Repr

/-- `storage.SaveClipboardData` (part_004 lines 94-129): if the history
exceeds `maxHistory`, partition it into pinned and unpinned entries
preserving order, keep all pinned ones plus the first
`maxHistory - len(pinned)` unpinned ones (clamped at zero, which Nat
subtraction does); then write the record atomically.  Returns the mutated
in-memory data together with the file contents written. -/
def SaveClipboardData (maxHistory : Nat) (clipData : ClipboardData) :
    ClipboardData × StoredFile :=
  let clipData :=
    if clipData.History.length > maxHistory then
      let parts := clipData.History.partition
        (fun item => mapLookup clipData.Pinned item)
      let maxUnpinned := maxHistory - parts.1.length
      { clipData with History := parts.1 ++ parts.2.take maxUnpinned }
    else clipData
  (clipData, StoredFile.newFormat clipData.History clipData.Pinned)

/-- `storage.LoadClipboardData` (part_004 lines 63-91): absent file gives
the empty state; the structured record is used as is; a legacy bare list
becomes a state with no pins; anything else is a parse error. -/
def LoadClipboardData : Option StoredFile → Except String ClipboardData
  | none => .ok ⟨[], []⟩
  | some (.newFormat history pinned) => .ok ⟨history, pinned⟩
  | some (.legacy history) => .ok ⟨history, []⟩
  | some .corrupt => .error "unmarshal failed"

/-- `storage.TogglePin` (part_004 lines 161-176), applied to the state the
Go code just loaded from disk: flip the pin status of `text`, storing
`true` on pin and deleting the key on unpin, then save.  Returns the new
status and the saved state. -/
def TogglePin (maxHistory : Nat) (clipData : ClipboardData)
    (text : String) : Bool × ClipboardData :=
  let newStatus := !(mapLookup clipData.Pinned text)
  let pinned :=
    if newStatus then mapInsert clipData.Pinned text true
    else mapDelete clipData.Pinned text
  (newStatus, (SaveClipboardData maxHistory { clipData with Pinned := pinned }).1)

/-- The daemon's linear scan for `txt` in the history (part_003 lines
48-55): index of the first occurrence, `none` when absent. -/
def existsAt : List String → String → Option Nat
  | [], _ => none
  | item :: rest, txt =>
    if item == txt then some 0 else (existsAt rest txt).map (· + 1)

/-- The daemon's history update for one captured text (part_003 lines
48-72): no-op when `txt` is already at the front; otherwise remove the old
occurrence (if any), push `txt` to the front, and truncate to
`maxHistory`.  The Bool records whether the history changed (whether the
daemon goes on to save). -/
def ingest (maxHistory : Nat) (history : List String) (txt : String) :
    List String × Bool :=
  match existsAt history txt with
  | some 0 => (history, false)
  | some i => ((txt :: history.eraseIdx i).take maxHistory, true)
  | none => ((txt :: history).take maxHistory, true)

/-- One full capture step of `daemon.Run` (part_003 lines 48-77): ingest
the text and, when the history changed, persist through
`storage.SaveClipboardData`. -/
def daemonCapture (maxHistory : Nat) (clipData : ClipboardData)
    (txt : String) : ClipboardData × Bool :=
  let r := ingest maxHistory clipData.History txt
  if r.2 then
    ((SaveClipboardData maxHistory { clipData with History := r.1 }).1, true)
  else (clipData, false)

/-- The number of pinned entries currently present in the history, the
quantity the retention policy reserves slots for. -/
def pinnedCount (d : ClipboardData) : Nat :=
  (d.History.filter (fun item => mapLookup d.Pinned item)).length

end ClipMgr

namespace ClipMgr

/-- Word-boundary characters of `fuzzyMatch` (part_000 line 224). -/
def isSep (c : Char) : Bool :=
  c == ' ' || c == '/' || c == '_' || c == '-'

/-- Case folding used by the search code: Go's `strings.ToLower` applied
before matching, viewed as a character list. -/
def lowerChars (s : String) : List Char :=
  s.data.map Char.toLower

/-- `strings.Contains text pattern`: does `pattern` occur contiguously in
`text`? -/
def containsSub (text pattern : List Char) : Bool :=
  if pattern.isPrefixOf text then true
  else
    match text with
    | [] => false
    | _ :: rest => containsSub rest pattern

/-- The scanning loop of `fuzzyMatch` (part_000 lines 203-225), walking
the text with the current byte index `i`, the count `pIdx` of consumed
pattern characters, the accumulated `score`, the index `lastMatchIdx` of
the last consumed character (initially -1), and the `wordStart` flag.
Returns the final `pIdx` and `score`. -/
def fuzzyLoop (pattern : List Char) :
    List Char → Nat → Nat → Int → Int → Bool → Nat × Int
  | [], _, pIdx, score, _, _ => (pIdx, score)
  | c :: rest, i, pIdx, score, lastMatchIdx, wordStart =>
    if h : pIdx < pattern.length then
      if c == pattern.get ⟨pIdx, h⟩ then
        let score := if lastMatchIdx == (i : Int) - 1 then score + 15 else score + 5
        let score := if wordStart then score + 10 else score
        fuzzyLoop pattern rest (i + 1) (pIdx + 1) score (i : Int) (isSep c)
      else
        fuzzyLoop pattern rest (i + 1) pIdx score lastMatchIdx (isSep c)
    else (pIdx, score)

/-- `fuzzyMatch` of the GUI (part_000 lines 189-233): lowercase both
sides; empty pattern scores 0; a contiguous substring occurrence scores
`1000 + 10 * len(pattern)`; otherwise run the greedy subsequence scan and
return -1 when not every pattern character was consumed. -/
def fuzzyMatch (pattern text : String) : Int :=
  let p := lowerChars pattern
  let t := lowerChars text
  if p.isEmpty then 0
  else if containsSub t p then 1000 + 10 * (p.length : Int)
  else
    let r := fuzzyLoop p t 0 0 0 (-1) true
    if r.1 < p.length then -1 else r.2

/-- Go struct `matchResult` of `applyFilter` (part_000 lines 245-248). -/
structure MatchResult where
  index : Nat
  score : Int
deriving DecidableEq, Repr

/-- Insert one element into a list already sorted by descending score,
using the comparator `(·.score > ·.score)` passed to `sort.Slice`. -/
def insertDesc (m : MatchResult) : List MatchResult → List MatchResult
  | [] => [m]
  | x :: xs => if m.score > x.score then m :: x :: xs else x :: insertDesc m xs

/-- Sorting by descending score: the model of the `sort.Slice` call of
`applyFilter` (part_000 lines 259-261).  `sort.Slice` promises exactly a
permutation sorted for the given comparator, which this realizes. -/
def sortDesc : List MatchResult → List MatchResult
  | [] => []
  | x :: xs => insertDesc x (sortDesc xs)

/-- The match collection loop of `applyFilter` (part_000 lines 249-256):
score every entry and keep those with score >= 0, tagged with their
position in `sortedHist`. -/
def matchesFor (query : String) (sortedHist : List String) :
    List MatchResult :=
  sortedHist.enum.filterMap (fun iv =>
    if fuzzyMatch query iv.2 >= 0 then some ⟨iv.1, fuzzyMatch query iv.2⟩
    else none)

/-- Go's `strings.TrimSpace`: strip leading and trailing whitespace,
modelled character-wise so that it computes by kernel reduction. -/
def trimSpace (s : String) : String :=
  String.mk
    (((s.data.dropWhile Char.isWhitespace).reverse.dropWhile
        Char.isWhitespace).reverse)

/-- `applyFilter` (part_000 lines 236-268), as the pure function from the
query and the displayed history to the list `filtered` of indices into
`sortedHist`: empty (trimmed) query keeps every index in order, otherwise
rank the matches by descending score. -/
def applyFilter (query : String) (sortedHist : List String) : List Nat :=
  let query := trimSpace query
  if query == "" then List.range sortedHist.length
  else (sortDesc (matchesFor query sortedHist)).map (fun m => m.index)

/-- The scoring walk exactly as the specification words it: walk the text
left to right consuming query characters in order; award +5 per match,
+10 more when the immediately preceding text character was also a consumed
match, and +10 more at a word start.  The flag `prevConsumed` records
whether the immediately preceding text character was a consumed match
(there is none at text position 0).  Returns the accumulated score and
the unconsumed remainder of the query. -/
def specWalk : List Char → List Char → Bool → Bool → Int × List Char
  | pat, [], _, _ => (0, pat)
  | [], _ :: _, _, _ => (0, [])
  | pc :: prest, c :: rest, prevConsumed, wordStart =>
    if c == pc then
      let bonus := (if prevConsumed then 15 else 5) + (if wordStart then 10 else 0)
      let r := specWalk prest rest true (isSep c)
      (bonus + r.1, r.2)
    else
      specWalk (pc :: prest) rest false (isSep c)

/-- The per-entry score exactly as the claim words it: substring matches
score `1000 + 10 * len(query)`; otherwise the greedy walk with *no*
consecutive-match bonus at text position 0 (there is no preceding text
character there); entries that do not consume the whole query score -1
(excluded). -/
def specFuzzyScore (pattern text : String) : Int :=
  let p := lowerChars pattern
  let t := lowerChars text
  if p.isEmpty then 0
  else if containsSub t p then 1000 + 10 * (p.length : Int)
  else
    let r := specWalk p t false true
    if r.2.isEmpty then r.1 else -1

/-- The amended per-entry score: identical to `specFuzzyScore` except that
a match at text position 0 also receives the consecutive-match bonus,
because the implementation initializes `lastMatchIdx` to -1, making the
test `lastMatchIdx == i-1` succeed at `i = 0`. -/
def specFuzzyScoreAmended (pattern text : String) : Int :=
  let p := lowerChars pattern
  let t := lowerChars text
  if p.isEmpty then 0
  else if containsSub t p then 1000 + 10 * (p.length : Int)
  else
    let r := specWalk p t true true
    if r.2.isEmpty then r.1 else -1

/-- A 68-character query of dashes, used to refute the unconditional
substring-priority claim. -/
def dashQuery : String := String.mk (List.replicate 68 '-')

/-- An entry containing `dashQuery` as a contiguous substring. -/
def dashSubstringEntry : String := String.mk (List.replicate 68 '-')

/-- An entry matching `dashQuery` only as a fuzzy subsequence: two runs of
34 dashes separated by a space, so no 68 consecutive dashes occur, yet
every dash scores the full 25 points (consecutive-match bonus, and
word-start bonus because a dash is itself a word boundary). -/
def dashFuzzyEntry : String :=
  String.mk (List.replicate 34 '-' ++ [' '] ++ List.replicate 34 '-')

end ClipMgr


namespace ClipMgr

/-! ### Helper lemmas about the storage model -/

theorem SaveClipboardData_Pinned (maxHistory : Nat) (d : ClipboardData) :
    (SaveClipboardData maxHistory d).1.Pinned = d.Pinned := by
  unfold SaveClipboardData
  by_cases h : d.History.length > maxHistory <;> simp [h]

theorem SaveClipboardData_of_le (maxHistory : Nat) (d : ClipboardData)
    (h : d.History.length ≤ maxHistory) :
    SaveClipboardData maxHistory d = (d, StoredFile.newFormat d.History d.Pinned) := by
  unfold SaveClipboardData
  simp [Nat.not_lt.2 h]

theorem SaveClipboardData_History (maxHistory : Nat) (d : ClipboardData) :
    (SaveClipboardData maxHistory d).1.History =
      if d.History.length > maxHistory then
        d.History.filter (fun item => mapLookup d.Pinned item) ++
          (d.History.filter (fun item => !(mapLookup d.Pinned item))).take
            (maxHistory - pinnedCount d)
      else d.History := by
  unfold SaveClipboardData pinnedCount
  by_cases h : d.History.length > maxHistory
  · simp only [h, if_true, List.partition_eq_filter_filter]
    rfl
  · simp [h]

theorem mapLookup_cons (p : String × Bool) (rest : List (String × Bool))
    (k : String) :
    mapLookup (p :: rest) k = if p.1 = k then p.2 else mapLookup rest k := by
  unfold mapLookup
  rw [List.find?_cons]
  by_cases h : p.1 = k
  · simp [h]
  · have hb : (p.1 == k) = false := by simpa using h
    simp [h, hb]

theorem mapLookup_mapDelete_self (m : List (String × Bool)) (k : String) :
    mapLookup (mapDelete m k) k = false := by
  induction m with
  | nil => rfl
  | cons p rest ih =>
    unfold mapDelete
    rw [List.filter_cons]
    by_cases h : p.1 = k
    · simpa [h, mapDelete] using ih
    · rw [if_pos (by simpa using h), mapLookup_cons, if_neg h]
      simpa [mapDelete] using ih

theorem mapLookup_mapDelete_ne (m : List (String × Bool)) (k k' : String)
    (h : k' ≠ k) : mapLookup (mapDelete m k) k' = mapLookup m k' := by
  induction m with
  | nil => rfl
  | cons p rest ih =>
    unfold mapDelete
    rw [List.filter_cons]
    by_cases hp : p.1 = k
    · rw [if_neg (by simpa using hp), mapLookup_cons,
        if_neg (by rw [hp]; exact fun e => h e.symm)]
      simpa [mapDelete] using ih
    · rw [if_pos (by simpa using hp), mapLookup_cons, mapLookup_cons]
      by_cases hq : p.1 = k'
      · simp [hq]
      · simpa [hq, mapDelete] using ih

theorem mapLookup_mapInsert_self (m : List (String × Bool)) (k : String)
    (v : Bool) : mapLookup (mapInsert m k v) k = v := by
  unfold mapInsert
  rw [mapLookup_cons]
  simp

theorem mapLookup_mapInsert_ne (m : List (String × Bool)) (k k' : String)
    (v : Bool) (h : k' ≠ k) :
    mapLookup (mapInsert m k v) k' = mapLookup m k' := by
  unfold mapInsert
  rw [mapLookup_cons, if_neg (fun e => h e.symm)]
  exact mapLookup_mapDelete_ne m k k' h

end ClipMgr

namespace ClipMgr

theorem SaveClipboardData_fst_of_le (maxHistory : Nat) (d : ClipboardData)
    (h : d.History.length ≤ maxHistory) :
    (SaveClipboardData maxHistory d).1 = d := by
  rw [SaveClipboardData_of_le maxHistory d h]

theorem TogglePin_eq (maxHistory : Nat) (d : ClipboardData) (text : String)
    (h : d.History.length ≤ maxHistory) :
    TogglePin maxHistory d text =
      (!(mapLookup d.Pinned text),
       { d with Pinned :=
           if !(mapLookup d.Pinned text) then mapInsert d.Pinned text true
           else mapDelete d.Pinned text }) := by
  simp only [TogglePin]
  exact congrArg (Prod.mk _) (SaveClipboardData_fst_of_le _ _ h)

/-! ### C3 -/

/-- C3 counterexample: with `MaxHistory` configured to its minimum value
10 and eleven distinct entries all pinned, a save keeps all eleven, so the
stored history is longer than `MaxHistory`. -/
theorem save_length_counterexample :
    ¬ ((SaveClipboardData 10 (ClipboardData.mk
        ["a", "b", "c", "d", "e", "f", "g", "h", "i", "j", "k"]
        [("a", true), ("b", true), ("c", true), ("d", true), ("e", true),
         ("f", true), ("g", true), ("h", true), ("i", true), ("j", true),
         ("k", true)])).1.History.length ≤ 10) := by decide

/-- C3 (amended): after a save the stored history has length at most
`maxHistory`, provided the number of pinned entries in the history does
not exceed `maxHistory`; the trim keeps all pinned entries plus at most
`maxHistory - pinnedCount` unpinned ones. -/
theorem save_length_le (maxHistory : Nat) (d : ClipboardData)
    (h : pinnedCount d ≤ maxHistory) :
    (SaveClipboardData maxHistory d).1.History.length ≤ maxHistory := by
  rw [SaveClipboardData_History]
  by_cases hl : d.History.length > maxHistory
  · rw [if_pos hl, List.length_append, List.length_take]
    unfold pinnedCount at h ⊢
    omega
  · rw [if_neg hl]
    omega

/-- Witness for `save_length_le` at a concrete state. -/
theorem save_length_le_witness :
    pinnedCount (ClipboardData.mk ["a", "b"] [("a", true)]) ≤ 1 ∧
    (SaveClipboardData 1 (ClipboardData.mk ["a", "b"] [("a", true)])).1.History.length ≤ 1 :=
  ⟨by decide, save_length_le 1 (ClipboardData.mk ["a", "b"] [("a", true)]) (by decide)⟩

/-! ### C8 -/

/-- C8: saving a state whose history fits within `maxHistory` and loading
the written file yields exactly the saved state (same entries in the same
order, same pinned map). -/
theorem save_load_roundtrip (maxHistory : Nat) (d : ClipboardData)
    (h : d.History.length ≤ maxHistory) :
    LoadClipboardData (some (SaveClipboardData maxHistory d).2) = Except.ok d := by
  rw [SaveClipboardData_of_le maxHistory d h]
  rfl

/-- Witness for `save_load_roundtrip` at a concrete state. -/
theorem save_load_roundtrip_witness :
    (ClipboardData.mk ["p", "q"] [("p", true)]).History.length ≤ 500 ∧
    LoadClipboardData
        (some (SaveClipboardData 500 (ClipboardData.mk ["p", "q"] [("p", true)])).2) =
      Except.ok (ClipboardData.mk ["p", "q"] [("p", true)]) :=
  ⟨by decide,
   save_load_roundtrip 500 (ClipboardData.mk ["p", "q"] [("p", true)]) (by decide)⟩

/-! ### C7 -/

/-- C7 counterexample: toggling the pin of a text that is nowhere in the
history does not fail and does mutate the pinned map — the code never
checks membership, contrary to the claim. -/
theorem togglePin_absent_counterexample :
    ("z" ∉ (ClipboardData.mk ["a"] []).History) ∧
    TogglePin 500 (ClipboardData.mk ["a"] []) "z" =
      (true, ClipboardData.mk ["a"] [("z", true)]) := by decide

/-- C7 (amended): `TogglePin` is total — for every text, present in the
history or not, it reports the flipped status, flips exactly that text's
pin membership, leaves every other key's status alone, and (when the
history is within `maxHistory`, so that the save-trim is a no-op) leaves
the history unchanged.  It never fails with anything like `NotFound`. -/
theorem togglePin_total (maxHistory : Nat) (d : ClipboardData) (text : String)
    (h : d.History.length ≤ maxHistory) :
    (TogglePin maxHistory d text).1 = !(mapLookup d.Pinned text) ∧
    (TogglePin maxHistory d text).2.History = d.History ∧
    mapLookup (TogglePin maxHistory d text).2.Pinned text
      = !(mapLookup d.Pinned text) ∧
    ∀ k, k ≠ text →
      mapLookup (TogglePin maxHistory d text).2.Pinned k = mapLookup d.Pinned k := by
  rw [TogglePin_eq maxHistory d text h]
  refine ⟨rfl, rfl, ?_, ?_⟩
  · by_cases hp : mapLookup d.Pinned text
    · simp [hp, mapLookup_mapDelete_self]
    · simp [hp, mapLookup_mapInsert_self]
  · intro k hk
    by_cases hp : mapLookup d.Pinned text
    · simp [hp, mapLookup_mapDelete_ne _ _ _ hk]
    · simp [hp, mapLookup_mapInsert_ne _ _ _ _ hk]

/-- Witness for `togglePin_total` at a concrete state. -/
theorem togglePin_total_witness :
    (ClipboardData.mk ["a"] []).History.length ≤ 500 ∧
    (TogglePin 500 (ClipboardData.mk ["a"] []) "a").1
      = !(mapLookup ([] : List (String × Bool)) "a") :=
  ⟨by decide, (togglePin_total 500 (ClipboardData.mk ["a"] []) "a" (by decide)).1⟩

/-! ### C10 -/

/-- C10: starting from a pinned map whose bindings are all `true`, any
`TogglePin` leaves a pinned map whose bindings are still all `true`:
unpinning deletes the key instead of storing `false`, and pinning stores
`true`. -/
theorem togglePin_pinned_values_true (maxHistory : Nat) (d : ClipboardData)
    (text : String) (h : ∀ pr ∈ d.Pinned, pr.2 = true) :
    ∀ pr ∈ (TogglePin maxHistory d text).2.Pinned, pr.2 = true := by
  intro pr hpr
  simp only [TogglePin, SaveClipboardData_Pinned] at hpr
  by_cases hp : mapLookup d.Pinned text
  · simp only [hp, Bool.not_true, if_false] at hpr
    exact h pr (List.mem_of_mem_filter hpr)
  · simp only [hp, Bool.not_false, if_true, mapInsert] at hpr
    rcases List.mem_cons.1 hpr with he | hm
    · rw [he]
    · exact h pr (List.mem_of_mem_filter hm)

/-- Witness for `togglePin_pinned_values_true` at a concrete state. -/
theorem togglePin_pinned_values_true_witness :
    (∀ pr ∈ (ClipboardData.mk ["a"] [("a", true)]).Pinned, pr.2 = true) ∧
    ∀ pr ∈ (TogglePin 500 (ClipboardData.mk ["a"] [("a", true)]) "a").2.Pinned,
      pr.2 = true :=
  ⟨by decide,
   togglePin_pinned_values_true 500 (ClipboardData.mk ["a"] [("a", true)]) "a"
     (by decide)⟩

/-! ### C1 -/

/-- C1: the daemon's capture path violates pin-preserving retention.  With
`MaxHistory = 3`, history `[a, b, c]` where `c` is pinned and only one
entry is pinned, capturing the new text `d` truncates the pushed-front
history `[d, a, b, c]` to `[d, a, b]` before the storage layer's
pin-preserving trim can run, evicting the pinned entry `c`. -/
theorem daemon_capture_evicts_pinned :
    mapLookup [("c", true)] "c" = true ∧
    (daemonCapture 3 (ClipboardData.mk ["a", "b", "c"] [("c", true)]) "d").1.History
      = ["d", "a", "b"] ∧
    "c" ∉ (daemonCapture 3 (ClipboardData.mk ["a", "b", "c"] [("c", true)]) "d").1.History := by
  decide

end ClipMgr

namespace ClipMgr

/-! ### Helper lemmas about the daemon ingest step -/

theorem existsAt_eq_none_iff (l : List String) (txt : String) :
    existsAt l txt = none ↔ txt ∉ l := by
  induction l with
  | nil => simp [existsAt]
  | cons x t ih =>
    by_cases hx : x = txt
    · simp [existsAt, hx]
    · have hb : (x == txt) = false := by simpa using hx
      simp [existsAt, hb, ih, Ne.symm hx]

theorem existsAt_eq_zero_iff (l : List String) (txt : String) :
    existsAt l txt = some 0 ↔ l.head? = some txt := by
  cases l with
  | nil => simp [existsAt]
  | cons x t =>
    by_cases hx : x = txt
    · simp [existsAt, hx]
    · have hb : (x == txt) = false := by simpa using hx
      simp only [existsAt, hb, if_false, List.head?_cons]
      constructor
      · intro h
        cases he : existsAt t txt with
        | none => rw [he] at h; simp at h
        | some j => rw [he] at h; simp at h
      · intro h
        exact absurd (Option.some.inj h) hx

theorem existsAt_eraseIdx (l : List String) (txt : String) (i : Nat)
    (h : existsAt l txt = some i) : l.eraseIdx i = l.erase txt := by
  induction l generalizing i with
  | nil => simp [existsAt] at h
  | cons x t ih =>
    by_cases hx : x = txt
    · have hb : (x == txt) = true := by simpa using hx
      rw [existsAt, if_pos hb] at h
      cases h
      rw [hx, List.erase_cons_head]
      rfl
    · have hb : (x == txt) = false := by simpa using hx
      rw [existsAt, if_neg (by simp [hb])] at h
      cases he : existsAt t txt with
      | none => rw [he] at h; simp at h
      | some j =>
        rw [he] at h
        simp only [Option.map_some'] at h
        cases h
        rw [List.eraseIdx_cons_succ, List.erase_cons_tail (by simp [hb])]
        rw [ih j he]

theorem head?_take_cons {α : Type} (a : α) (l : List α) (n : Nat)
    (h : 0 < n) : ((a :: l).take n).head? = some a := by
  cases n with
  | zero => omega
  | succ m => rfl

theorem ingest_of_head (maxHistory : Nat) (l : List String) (txt : String)
    (h : l.head? = some txt) : ingest maxHistory l txt = (l, false) := by
  unfold ingest
  rw [(existsAt_eq_zero_iff l txt).2 h]

end ClipMgr

namespace ClipMgr

/-! ### C5 -/

/-- C5: the daemon's ingest on a history within capacity: a text already
at position 0 changes nothing and reports `false`; a text present deeper
is removed from its position and reinserted at the front, reporting
`true`; an absent text is inserted at the front (with the retention
truncation applied), reporting `true`; and ingesting the same text twice
in a row leaves the history exactly as after the first ingest. -/
theorem ingest_spec (maxHistory : Nat) (l : List String) (txt : String)
    (hmax : 0 < maxHistory) (hlen : l.length ≤ maxHistory) :
    (l.head? = some txt → ingest maxHistory l txt = (l, false)) ∧
    (txt ∈ l → l.head? ≠ some txt →
      ingest maxHistory l txt = (txt :: l.erase txt, true)) ∧
    (txt ∉ l → ingest maxHistory l txt = ((txt :: l).take maxHistory, true)) ∧
    ingest maxHistory (ingest maxHistory l txt).1 txt
      = ((ingest maxHistory l txt).1, false) := by
  refine ⟨ingest_of_head maxHistory l txt, ?_, ?_, ?_⟩
  · intro hm hh
    cases he : existsAt l txt with
    | none => exact absurd hm ((existsAt_eq_none_iff l txt).1 he)
    | some i =>
      cases i with
      | zero => exact absurd ((existsAt_eq_zero_iff l txt).1 he) hh
      | succ j =>
        have hl : (txt :: l.erase txt).length ≤ maxHistory := by
          have h1 : 1 ≤ l.length := by
            cases l with
            | nil => simp at hm
            | cons a t => simp
          rw [List.length_cons, List.length_erase_of_mem hm]
          omega
        unfold ingest
        rw [he]
        show ((txt :: l.eraseIdx (j + 1)).take maxHistory, true)
          = (txt :: l.erase txt, true)
        rw [existsAt_eraseIdx l txt (j + 1) he, List.take_of_length_le hl]
  · intro hm
    unfold ingest
    rw [(existsAt_eq_none_iff l txt).2 hm]
  · have hhead : ((ingest maxHistory l txt).1).head? = some txt ∨
        (ingest maxHistory l txt).1 = l ∧ l.head? = some txt := by
      unfold ingest
      cases he : existsAt l txt with
      | none => exact Or.inl (head?_take_cons txt l maxHistory hmax)
      | some i =>
        cases i with
        | zero => exact Or.inr ⟨rfl, (existsAt_eq_zero_iff l txt).1 he⟩
        | succ j => exact Or.inl (head?_take_cons txt _ maxHistory hmax)
    rcases hhead with h | ⟨he, hh⟩
    · exact ingest_of_head maxHistory _ txt h
    · rw [he]
      exact ingest_of_head maxHistory l txt hh

/-- Witness for `ingest_spec`: the specification's own move-to-front
example, `ingest(b)` on `[a, b, c]` with `MaxHistory = 3`. -/
theorem ingest_spec_witness :
    0 < 3 ∧ (["a", "b", "c"] : List String).length ≤ 3 ∧
    ingest 3 ["a", "b", "c"] "b" = (["b", "a", "c"], true) := by
  refine ⟨by decide, by decide, ?_⟩
  have h := (ingest_spec 3 ["a", "b", "c"] "b" (by decide) (by decide)).2.1
    (by decide) (by decide)
  simpa using h

/-! ### C9 -/

theorem SaveClipboardData_nodup (maxHistory : Nat) (d : ClipboardData)
    (h : d.History.Nodup) :
    (SaveClipboardData maxHistory d).1.History.Nodup := by
  rw [SaveClipboardData_History]
  by_cases hl : d.History.length > maxHistory
  · rw [if_pos hl]
    rw [List.nodup_append]
    refine ⟨h.filter _, (List.take_sublist _ _).nodup (h.filter _), ?_⟩
    intro a ha hb
    have h1 : mapLookup d.Pinned a = true := (List.mem_filter.1 ha).2
    have h2 := (List.mem_filter.1 ((List.take_sublist _ _).subset hb)).2
    rw [h1] at h2
    simp at h2
  · rw [if_neg hl]
    exact h

theorem ingest_nodup (maxHistory : Nat) (l : List String) (txt : String)
    (h : l.Nodup) : (ingest maxHistory l txt).1.Nodup := by
  unfold ingest
  cases he : existsAt l txt with
  | none =>
    have hm : txt ∉ l := (existsAt_eq_none_iff l txt).1 he
    exact (List.take_sublist _ _).nodup (List.nodup_cons.2 ⟨hm, h⟩)
  | some i =>
    cases i with
    | zero => exact h
    | succ j =>
      show ((txt :: l.eraseIdx (j + 1)).take maxHistory).Nodup
      rw [existsAt_eraseIdx l txt (j + 1) he]
      exact (List.take_sublist _ _).nodup
        (List.nodup_cons.2 ⟨h.not_mem_erase, h.erase txt⟩)

theorem daemonCapture_nodup (maxHistory : Nat) (d : ClipboardData)
    (txt : String) (h : d.History.Nodup) :
    (daemonCapture maxHistory d txt).1.History.Nodup := by
  simp only [daemonCapture]
  by_cases hc : (ingest maxHistory d.History txt).2
  · rw [if_pos hc]
    exact SaveClipboardData_nodup maxHistory _ (ingest_nodup maxHistory d.History txt h)
  · rw [if_neg hc]
    exact h

/-- C9: along any sequence of daemon captures starting from a
duplicate-free history, the history stays duplicate-free. -/
theorem capture_sequence_nodup (maxHistory : Nat) (txts : List String)
    (d : ClipboardData) (h : d.History.Nodup) :
    (txts.foldl (fun s t => (daemonCapture maxHistory s t).1) d).History.Nodup := by
  induction txts generalizing d with
  | nil => exact h
  | cons t ts ih => exact ih _ (daemonCapture_nodup maxHistory d t h)

/-- Witness for `capture_sequence_nodup` on a concrete capture sequence
with a repeated text. -/
theorem capture_sequence_nodup_witness :
    (ClipboardData.mk [] []).History.Nodup ∧
    ((["a", "b", "a"] : List String).foldl
        (fun s t => (daemonCapture 3 s t).1) (ClipboardData.mk [] [])).History.Nodup :=
  ⟨by decide,
   capture_sequence_nodup 3 ["a", "b", "a"] (ClipboardData.mk [] []) (by decide)⟩

end ClipMgr

namespace ClipMgr

/-! ### Lemmas about `containsSub` -/

theorem isPrefixOf_imp_sublist :
    ∀ (p t : List Char), p.isPrefixOf t = true → p.Sublist t
  | [], _, _ => List.nil_sublist _
  | _ :: _, [], h => by simp [List.isPrefixOf] at h
  | a :: as, b :: bs, h => by
    rw [List.isPrefixOf, Bool.and_eq_true] at h
    have ha : a = b := eq_of_beq h.1
    rw [ha]
    exact (isPrefixOf_imp_sublist as bs h.2).cons₂ b

theorem containsSub_of_isPrefixOf (t p : List Char)
    (h : p.isPrefixOf t = true) : containsSub t p = true := by
  unfold containsSub
  rw [if_pos h]

theorem containsSub_sublist :
    ∀ (t p : List Char), containsSub t p = true → p.Sublist t := by
  intro t
  induction t with
  | nil =>
    intro p h
    unfold containsSub at h
    by_cases hp : p.isPrefixOf [] = true
    · exact isPrefixOf_imp_sublist p [] hp
    · rw [if_neg hp] at h
      simp at h
  | cons c rest ih =>
    intro p h
    unfold containsSub at h
    by_cases hp : p.isPrefixOf (c :: rest) = true
    · exact isPrefixOf_imp_sublist p (c :: rest) hp
    · rw [if_neg hp] at h
      exact (ih p h).cons c

theorem take_eq_imp_isPrefixOf :
    ∀ (p t : List Char), t.take p.length = p → p.isPrefixOf t = true
  | [], t, _ => by simp [List.isPrefixOf]
  | a :: as, [], h => by simp at h
  | a :: as, b :: bs, h => by
    rw [List.length_cons, List.take_succ_cons] at h
    have hb : b = a := (List.cons.inj h).1
    have ht : bs.take as.length = as := (List.cons.inj h).2
    rw [List.isPrefixOf, hb]
    simp [take_eq_imp_isPrefixOf as bs ht]

/-! ### Lemmas about `specWalk` -/

theorem specWalk_rem_length :
    ∀ (text pat : List Char) (prev ws : Bool),
      (specWalk pat text prev ws).2.length ≤ pat.length := by
  intro text
  induction text with
  | nil => intro pat prev ws; simp [specWalk]
  | cons c rest ih =>
    intro pat prev ws
    cases pat with
    | nil => simp [specWalk]
    | cons pc prest =>
      by_cases hc : (c == pc) = true
      · simp only [specWalk, hc, if_true]
        exact Nat.le_succ_of_le (ih prest true (isSep c))
      · simp only [specWalk, hc, if_false]
        exact ih (pc :: prest) false (isSep c)

theorem specWalk_consumed_sublist :
    ∀ (text pat : List Char) (prev ws : Bool),
      ∃ consumed, pat = consumed ++ (specWalk pat text prev ws).2 ∧
        consumed.Sublist text := by
  intro text
  induction text with
  | nil =>
    intro pat prev ws
    exact ⟨[], by simp [specWalk]⟩
  | cons c rest ih =>
    intro pat prev ws
    cases pat with
    | nil => exact ⟨[], by simp [specWalk]⟩
    | cons pc prest =>
      by_cases hc : (c == pc) = true
      · obtain ⟨consumed, heq, hsub⟩ := ih prest true (isSep c)
        refine ⟨pc :: consumed, ?_, ?_⟩
        · simp only [specWalk, hc, if_true]
          rw [List.cons_append, ← heq]
        · rw [eq_of_beq hc]
          exact hsub.cons₂ pc
      · obtain ⟨consumed, heq, hsub⟩ := ih (pc :: prest) false (isSep c)
        refine ⟨consumed, ?_, hsub.cons c⟩
        simp only [specWalk, hc, if_false]
        exact heq

theorem specWalk_rem_empty_sublist (pat text : List Char) (prev ws : Bool)
    (h : (specWalk pat text prev ws).2 = []) : pat.Sublist text := by
  obtain ⟨consumed, heq, hsub⟩ := specWalk_consumed_sublist text pat prev ws
  rw [h, List.append_nil] at heq
  rw [heq]
  exact hsub

end ClipMgr

namespace ClipMgr

/-- The code's scanning loop agrees with the specification's walk, once
the walk's "previous character was a consumed match" flag is identified
with the code's test `lastMatchIdx == i-1`.  The final `pIdx` is the
number of consumed pattern characters. -/
theorem fuzzyLoop_eq_specWalk (p : List Char) :
    ∀ (rest : List Char) (i pIdx : Nat) (score last : Int) (ws prev : Bool),
      pIdx ≤ p.length →
      last < (i : Int) →
      prev = (last == (i : Int) - 1) →
      fuzzyLoop p rest i pIdx score last ws
        = (p.length - (specWalk (p.drop pIdx) rest prev ws).2.length,
           score + (specWalk (p.drop pIdx) rest prev ws).1) := by
  intro rest
  induction rest with
  | nil =>
    intro i pIdx score last ws prev hle _ _
    simp only [fuzzyLoop, specWalk, List.length_drop]
    rw [Prod.mk.injEq]
    exact ⟨by omega, by omega⟩
  | cons c rest ih =>
    intro i pIdx score last ws prev hle hlt hprev
    by_cases hpl : pIdx < p.length
    · have hdrop : p.drop pIdx = p.get ⟨pIdx, hpl⟩ :: p.drop (pIdx + 1) :=
        List.drop_eq_getElem_cons hpl
      rw [hdrop]
      by_cases hc : (c == p.get ⟨pIdx, hpl⟩) = true
      · have harith :
            (if ws then
              (if (last == (i : Int) - 1) then score + 15 else score + 5) + 10
             else (if (last == (i : Int) - 1) then score + 15 else score + 5))
            = score + ((if prev then (15 : Int) else 5) +
                (if ws then (10 : Int) else 0)) := by
          rw [hprev]
          cases (last == (i : Int) - 1) <;> cases ws <;> simp <;> ring
        have hrec := ih (i + 1) (pIdx + 1)
          (score + ((if prev then (15 : Int) else 5) +
            (if ws then (10 : Int) else 0)))
          (i : Int) (isSep c) true hpl
          (by push_cast; omega)
          (by
            have h1 : ((i + 1 : Nat) : Int) - 1 = (i : Int) := by
              push_cast; ring
            rw [h1]
            simp)
        have hL : fuzzyLoop p (c :: rest) i pIdx score last ws
            = fuzzyLoop p rest (i + 1) (pIdx + 1)
                (if ws then
                  (if (last == (i : Int) - 1) then score + 15 else score + 5) + 10
                 else (if (last == (i : Int) - 1) then score + 15 else score + 5))
                (i : Int) (isSep c) := by
          simp only [fuzzyLoop]
          rw [dif_pos hpl, if_pos hc]
        have hR : specWalk (p.get ⟨pIdx, hpl⟩ :: p.drop (pIdx + 1)) (c :: rest) prev ws
            = (((if prev then (15 : Int) else 5) + (if ws then (10 : Int) else 0))
                + (specWalk (p.drop (pIdx + 1)) rest true (isSep c)).1,
               (specWalk (p.drop (pIdx + 1)) rest true (isSep c)).2) := by
          simp only [specWalk]
          rw [if_pos hc]
        rw [hL, harith, hrec, hR]
        rw [Prod.mk.injEq]
        exact ⟨rfl, by ring⟩
      · have hrec := ih (i + 1) pIdx score last (isSep c) false hle
          (by push_cast; omega)
          (by
            have h1 : ((i + 1 : Nat) : Int) - 1 = (i : Int) := by
              push_cast; ring
            have hne : last ≠ (i : Int) := by omega
            rw [h1]
            exact (beq_eq_false_iff_ne.2 hne).symm)
        have hL : fuzzyLoop p (c :: rest) i pIdx score last ws
            = fuzzyLoop p rest (i + 1) pIdx score last (isSep c) := by
          simp only [fuzzyLoop]
          rw [dif_pos hpl, if_neg hc]
        have hR : specWalk (p.get ⟨pIdx, hpl⟩ :: p.drop (pIdx + 1)) (c :: rest) prev ws
            = specWalk (p.get ⟨pIdx, hpl⟩ :: p.drop (pIdx + 1)) rest false (isSep c) := by
          simp only [specWalk]
          rw [if_neg hc]
        rw [hL, hrec, hR, ← hdrop]
    · have hpe : pIdx = p.length := by omega
      have hdrop : p.drop pIdx = [] := by
        rw [hpe, List.drop_length]
      rw [hdrop]
      have hL : fuzzyLoop p (c :: rest) i pIdx score last ws = (pIdx, score) := by
        simp only [fuzzyLoop]
        rw [dif_neg hpl]
      rw [hL]
      simp only [specWalk]
      rw [Prod.mk.injEq]
      exact ⟨by simp [hpe], by omega⟩

end ClipMgr

namespace ClipMgr

theorem lowerChars_length_pos (s : String) (h : ¬ (lowerChars s).isEmpty = true) :
    0 < (lowerChars s).length := by
  cases hl : lowerChars s with
  | nil => rw [hl] at h; simp at h
  | cons a l => simp

/-- C6 equality half: the implementation's score is exactly the
specification's walk amended with the position-0 consecutive bonus. -/
theorem fuzzyMatch_eq_specAmended (pattern text : String) :
    fuzzyMatch pattern text = specFuzzyScoreAmended pattern text := by
  by_cases hp : (lowerChars pattern).isEmpty = true
  · simp [fuzzyMatch, specFuzzyScoreAmended, hp]
  · by_cases hc : containsSub (lowerChars text) (lowerChars pattern) = true
    · simp [fuzzyMatch, specFuzzyScoreAmended, hp, hc]
    · have hc' : containsSub (lowerChars text) (lowerChars pattern) = false := by
        simpa using hc
      have hkey := fuzzyLoop_eq_specWalk (lowerChars pattern) (lowerChars text)
        0 0 0 (-1) true true (Nat.zero_le _) (by norm_num) (by simp)
      rw [List.drop_zero] at hkey
      have hrem := specWalk_rem_length (lowerChars text) (lowerChars pattern)
        true true
      have hplen : 0 < (lowerChars pattern).length := lowerChars_length_pos _ hp
      simp only [fuzzyMatch, specFuzzyScoreAmended, hp, hc', Bool.false_eq_true,
        if_false, hkey]
      by_cases hre : (specWalk (lowerChars pattern) (lowerChars text) true true).2 = []
      · rw [hre]
        simp only [List.length_nil, List.isEmpty_nil, if_true, Nat.sub_zero]
        rw [if_neg (by omega)]
        ring
      · have hre1 : 0 < (specWalk (lowerChars pattern) (lowerChars text) true true).2.length := by
          cases hl : (specWalk (lowerChars pattern) (lowerChars text) true true).2 with
          | nil => exact absurd hl hre
          | cons a l => simp
        have hree : (specWalk (lowerChars pattern) (lowerChars text) true true).2.isEmpty = false := by
          cases hl : (specWalk (lowerChars pattern) (lowerChars text) true true).2 with
          | nil => exact absurd hl hre
          | cons a l => rfl
        rw [hree]
        simp only [Bool.false_eq_true, if_false]
        rw [if_pos (by omega)]

end ClipMgr

namespace ClipMgr

/-- Invariant of the scanning loop: the score never exceeds 25 per
consumed pattern character, the deficit from that ceiling is a multiple
of 10, and a full-ceiling score forces the consumed characters to be
exactly an initial segment of the text equal to an initial segment of the
pattern (each 25-point match needs both the consecutive bonus, chaining
the matches from position 0, and the word-start bonus). -/
theorem fuzzyLoop_bound (p t : List Char) :
    ∀ (rest : List Char) (i pIdx : Nat) (score last : Int) (ws : Bool),
      rest = t.drop i →
      last < (i : Int) →
      score ≤ 25 * (pIdx : Int) →
      (10 : Int) ∣ (25 * (pIdx : Int) - score) →
      (score = 25 * (pIdx : Int) →
        last = (pIdx : Int) - 1 ∧ t.take pIdx = p.take pIdx) →
      (fuzzyLoop p rest i pIdx score last ws).2
          ≤ 25 * ((fuzzyLoop p rest i pIdx score last ws).1 : Int) ∧
      (10 : Int) ∣ (25 * ((fuzzyLoop p rest i pIdx score last ws).1 : Int)
          - (fuzzyLoop p rest i pIdx score last ws).2) ∧
      ((fuzzyLoop p rest i pIdx score last ws).2
          = 25 * ((fuzzyLoop p rest i pIdx score last ws).1 : Int) →
        t.take (fuzzyLoop p rest i pIdx score last ws).1
          = p.take (fuzzyLoop p rest i pIdx score last ws).1) := by
  intro rest
  induction rest with
  | nil =>
    intro i pIdx score last ws _ _ hb hd hcont
    exact ⟨hb, hd, fun h25 => (hcont h25).2⟩
  | cons c rest ih =>
    intro i pIdx score last ws hrest hlt hb hd hcont
    have hti : t[i]? = some c := by
      have h0 : (t.drop i)[0]? = some c := by rw [← hrest]; simp
      rw [List.getElem?_drop] at h0
      simpa using h0
    have hrest' : rest = t.drop (i + 1) := by
      have h1 : (t.drop i).drop 1 = t.drop (i + 1) := List.drop_drop 1 i t
      rw [← h1, ← hrest]
      simp
    by_cases hpl : pIdx < p.length
    · by_cases hc : (c == p.get ⟨pIdx, hpl⟩) = true
      · have hL : fuzzyLoop p (c :: rest) i pIdx score last ws
            = fuzzyLoop p rest (i + 1) (pIdx + 1)
                (if ws then
                  (if (last == (i : Int) - 1) then score + 15 else score + 5) + 10
                 else (if (last == (i : Int) - 1) then score + 15 else score + 5))
                (i : Int) (isSep c) := by
          simp only [fuzzyLoop]
          rw [dif_pos hpl, if_pos hc]
        have harith :
            (if ws then
              (if (last == (i : Int) - 1) then score + 15 else score + 5) + 10
             else (if (last == (i : Int) - 1) then score + 15 else score + 5))
            = score + ((if (last == (i : Int) - 1) then (15 : Int) else 5) +
                (if ws then (10 : Int) else 0)) := by
          cases (last == (i : Int) - 1) <;> cases ws <;> simp <;> ring
        rw [hL, harith]
        have hble : ((if (last == (i : Int) - 1) then (15 : Int) else 5) +
            (if ws then (10 : Int) else 0)) ≤ 25 := by
          cases (last == (i : Int) - 1) <;> cases ws <;> norm_num
        have hbdvd : (10 : Int) ∣ (25 - ((if (last == (i : Int) - 1) then (15 : Int) else 5) +
            (if ws then (10 : Int) else 0))) := by
          cases (last == (i : Int) - 1) <;> cases ws <;> norm_num
        have hb25 : ((if (last == (i : Int) - 1) then (15 : Int) else 5) +
            (if ws then (10 : Int) else 0)) = 25 →
            (last == (i : Int) - 1) = true ∧ ws = true := by
          cases (last == (i : Int) - 1) <;> cases ws <;> norm_num
        refine ih (i + 1) (pIdx + 1) _ (i : Int) (isSep c) hrest'
          (by push_cast; omega) (by push_cast; omega) ?_ ?_
        · have heq : 25 * (((pIdx + 1 : Nat)) : Int)
              - (score + ((if (last == (i : Int) - 1) then (15 : Int) else 5) +
                  (if ws then (10 : Int) else 0)))
              = (25 * (pIdx : Int) - score)
                + (25 - ((if (last == (i : Int) - 1) then (15 : Int) else 5) +
                    (if ws then (10 : Int) else 0))) := by
            push_cast
            ring
          rw [heq]
          exact dvd_add hd hbdvd
        · intro h25
          have hbe : ((if (last == (i : Int) - 1) then (15 : Int) else 5) +
              (if ws then (10 : Int) else 0)) = 25 := by
            push_cast at h25
            omega
          obtain ⟨hlb, _⟩ := hb25 hbe
          have hscore : score = 25 * (pIdx : Int) := by
            push_cast at h25
            omega
          obtain ⟨hlast, htake⟩ := hcont hscore
          have hlasti : last = (i : Int) - 1 := eq_of_beq hlb
          have hipn : i = pIdx := by
            have : (i : Int) = (pIdx : Int) := by omega
            exact_mod_cast this
          constructor
          · push_cast
            omega
          · have ht2 : t[pIdx]? = some c := by rw [← hipn]; exact hti
            have htp : p[pIdx]? = some (p.get ⟨pIdx, hpl⟩) :=
              List.getElem?_eq_getElem hpl
            rw [List.take_succ, List.take_succ, htake, ht2, htp]
            rw [eq_of_beq hc]
      · have hL : fuzzyLoop p (c :: rest) i pIdx score last ws
            = fuzzyLoop p rest (i + 1) pIdx score last (isSep c) := by
          simp only [fuzzyLoop]
          rw [dif_pos hpl, if_neg hc]
        rw [hL]
        exact ih (i + 1) pIdx score last (isSep c) hrest'
          (by push_cast; omega) hb hd hcont
    · have hL : fuzzyLoop p (c :: rest) i pIdx score last ws = (pIdx, score) := by
        simp only [fuzzyLoop]
        rw [dif_neg hpl]
      rw [hL]
      exact ⟨hb, hd, fun h25 => (hcont h25).2⟩

end ClipMgr

namespace ClipMgr

theorem fuzzyMatch_substring (q a : String)
    (hp : ¬ (lowerChars q).isEmpty = true)
    (hc : containsSub (lowerChars a) (lowerChars q) = true) :
    fuzzyMatch q a = 1000 + 10 * ((lowerChars q).length : Int) := by
  have hp' : (lowerChars q).isEmpty = false := by simpa using hp
  simp only [fuzzyMatch, hp', hc, Bool.false_eq_true, if_false, if_true]

theorem fuzzyMatch_fuzzy_branch (q b : String)
    (hp : ¬ (lowerChars q).isEmpty = true)
    (hc : containsSub (lowerChars b) (lowerChars q) = false) :
    fuzzyMatch q b =
      if (fuzzyLoop (lowerChars q) (lowerChars b) 0 0 0 (-1) true).1
          < (lowerChars q).length
      then -1
      else (fuzzyLoop (lowerChars q) (lowerChars b) 0 0 0 (-1) true).2 := by
  have hp' : (lowerChars q).isEmpty = false := by simpa using hp
  simp only [fuzzyMatch, hp', hc, Bool.false_eq_true, if_false]

/-- A fuzzy-only (non-substring) match either misses some query character
and scores -1, or scores at most `25 * len(query) - 10`: every consumed
character is worth at most 25 points, and a full 25-per-character score
would force the query to sit at the start of the text, contradicting the
failed substring test. -/
theorem fuzzyMatch_fuzzy_le (q b : String)
    (hp : ¬ (lowerChars q).isEmpty = true)
    (hc : containsSub (lowerChars b) (lowerChars q) = false) :
    fuzzyMatch q b = -1 ∨
    fuzzyMatch q b ≤ 25 * ((lowerChars q).length : Int) - 10 := by
  rw [fuzzyMatch_fuzzy_branch q b hp hc]
  by_cases hlt : (fuzzyLoop (lowerChars q) (lowerChars b) 0 0 0 (-1) true).1
      < (lowerChars q).length
  · left
    rw [if_pos hlt]
  · right
    rw [if_neg hlt]
    have hcorr := fuzzyLoop_eq_specWalk (lowerChars q) (lowerChars b)
      0 0 0 (-1) true true (Nat.zero_le _) (by norm_num) (by simp)
    rw [List.drop_zero] at hcorr
    have hr1le : (fuzzyLoop (lowerChars q) (lowerChars b) 0 0 0 (-1) true).1
        ≤ (lowerChars q).length := by
      rw [hcorr]
      exact Nat.sub_le _ _
    have hr1 : (fuzzyLoop (lowerChars q) (lowerChars b) 0 0 0 (-1) true).1
        = (lowerChars q).length := by omega
    have hbound := fuzzyLoop_bound (lowerChars q) (lowerChars b)
      (lowerChars b) 0 0 0 (-1) true rfl (by norm_num) (by norm_num)
      (by norm_num) (fun _ => ⟨by norm_num, by simp⟩)
    obtain ⟨hb1, hb2, hb3⟩ := hbound
    by_cases h25 : (fuzzyLoop (lowerChars q) (lowerChars b) 0 0 0 (-1) true).2
        = 25 * ((fuzzyLoop (lowerChars q) (lowerChars b) 0 0 0 (-1) true).1 : Int)
    · exfalso
      have ht := hb3 h25
      rw [hr1, List.take_length] at ht
      have hpref := take_eq_imp_isPrefixOf (lowerChars q) (lowerChars b) ht
      have hcc := containsSub_of_isPrefixOf (lowerChars b) (lowerChars q) hpref
      rw [hc] at hcc
      simp at hcc
    · obtain ⟨k, hk⟩ := hb2
      have hcast : ((fuzzyLoop (lowerChars q) (lowerChars b) 0 0 0 (-1) true).1 : Int)
          = ((lowerChars q).length : Int) := by
        exact_mod_cast congrArg (Nat.cast : Nat → Int) hr1
      rw [hcast] at hb1 hk h25
      omega

/-- An entry whose lowercased text does not contain the lowercased query
as a subsequence scores -1 (is excluded). -/
theorem fuzzyMatch_notSublist (pattern text : String)
    (h : ¬ (lowerChars pattern).Sublist (lowerChars text)) :
    fuzzyMatch pattern text = -1 := by
  have hp : ¬ (lowerChars pattern).isEmpty = true := by
    intro he
    apply h
    rw [List.isEmpty_iff.1 he]
    exact List.nil_sublist _
  have hc : containsSub (lowerChars text) (lowerChars pattern) = false := by
    by_cases hcc : containsSub (lowerChars text) (lowerChars pattern) = true
    · exact absurd (containsSub_sublist _ _ hcc) h
    · simpa using hcc
  rw [fuzzyMatch_eq_specAmended]
  have hre : (specWalk (lowerChars pattern) (lowerChars text) true true).2 ≠ [] := by
    intro he
    exact h (specWalk_rem_empty_sublist _ _ _ _ he)
  have hree : (specWalk (lowerChars pattern) (lowerChars text) true true).2.isEmpty
      = false := by
    cases hl : (specWalk (lowerChars pattern) (lowerChars text) true true).2 with
    | nil => exact absurd hl hre
    | cons x xs => rfl
  have hp' : (lowerChars pattern).isEmpty = false := by simpa using hp
  simp only [specFuzzyScoreAmended, hp', hc, Bool.false_eq_true, if_false, hree]

end ClipMgr

namespace ClipMgr

/-! ### The comparator-sorted ranking of `applyFilter` -/

theorem insertDesc_perm (m : MatchResult) (l : List MatchResult) :
    (insertDesc m l).Perm (m :: l) := by
  induction l with
  | nil => exact List.Perm.refl _
  | cons x xs ih =>
    unfold insertDesc
    by_cases h : m.score > x.score
    · rw [if_pos h]
    · rw [if_neg h]
      exact (ih.cons x).trans (List.Perm.swap m x xs)

theorem sortDesc_perm (l : List MatchResult) : (sortDesc l).Perm l := by
  induction l with
  | nil => exact List.Perm.refl _
  | cons x xs ih =>
    exact (insertDesc_perm x (sortDesc xs)).trans (ih.cons x)

theorem mem_sortDesc (m : MatchResult) (l : List MatchResult) :
    m ∈ sortDesc l ↔ m ∈ l :=
  (sortDesc_perm l).mem_iff

theorem insertDesc_pairwise (m : MatchResult) (l : List MatchResult)
    (h : l.Pairwise (fun u v => v.score ≤ u.score)) :
    (insertDesc m l).Pairwise (fun u v => v.score ≤ u.score) := by
  induction l with
  | nil => simp [insertDesc]
  | cons x xs ih =>
    rw [List.pairwise_cons] at h
    unfold insertDesc
    by_cases hmx : m.score > x.score
    · rw [if_pos hmx, List.pairwise_cons]
      constructor
      · intro b hb
        rcases List.mem_cons.1 hb with rfl | hbx
        · exact le_of_lt hmx
        · exact le_trans (h.1 b hbx) (le_of_lt hmx)
      · rw [List.pairwise_cons]
        exact h
    · rw [if_neg hmx, List.pairwise_cons]
      constructor
      · intro b hb
        rcases List.mem_cons.1 ((insertDesc_perm m xs).mem_iff.1 hb) with rfl | hbx
        · exact le_of_not_lt hmx
        · exact h.1 b hbx
      · exact ih h.2

theorem sortDesc_pairwise (l : List MatchResult) :
    (sortDesc l).Pairwise (fun u v => v.score ≤ u.score) := by
  induction l with
  | nil => exact List.Pairwise.nil
  | cons x xs ih => exact insertDesc_pairwise x (sortDesc xs) ih

theorem mem_matchesFor (q : String) (hist : List String) (m : MatchResult) :
    m ∈ matchesFor q hist ↔
      ∃ v, hist[m.index]? = some v ∧ m.score = fuzzyMatch q v ∧ 0 ≤ m.score := by
  unfold matchesFor
  rw [List.mem_filterMap]
  constructor
  · rintro ⟨iv, hmem, hf⟩
    by_cases hs : fuzzyMatch q iv.2 >= 0
    · rw [if_pos hs] at hf
      have hm := Option.some.inj hf
      refine ⟨iv.2, ?_, ?_, ?_⟩
      · rw [← hm]
        exact List.mem_enum_iff_getElem?.1 hmem
      · rw [← hm]
      · rw [← hm]
        exact hs
    · rw [if_neg hs] at hf
      simp at hf
  · rintro ⟨v, hv, hs, h0⟩
    refine ⟨(m.index, v), List.mem_enum_iff_getElem?.2 hv, ?_⟩
    rw [if_pos (by rw [← hs]; exact h0)]
    cases m with
    | mk idx sc =>
      simp only at hs
      rw [← hs]

theorem applyFilter_eq (q : String) (hist : List String)
    (hq : trimSpace q = q) (hne : q ≠ "") :
    applyFilter q hist = (sortDesc (matchesFor q hist)).map (fun m => m.index) := by
  have hb : (q == "") = false := by simpa using hne
  simp only [applyFilter, hq, hb, Bool.false_eq_true, if_false]

/-- Any entry with a strictly higher score than another is placed at a
strictly earlier position by the descending sort, for every pair of
positions holding them. -/
theorem applyFilter_ranks (q : String) (hist : List String)
    (hq : trimSpace q = q) (hne : q ≠ "")
    (ia ib : Nat) (a b : String)
    (hia : hist[ia]? = some a) (hib : hist[ib]? = some b)
    (ha0 : 0 ≤ fuzzyMatch q a) (hb0 : 0 ≤ fuzzyMatch q b)
    (hgt : fuzzyMatch q b < fuzzyMatch q a) :
    ia ∈ applyFilter q hist ∧ ib ∈ applyFilter q hist ∧
    ∀ (ka kb : Nat), (applyFilter q hist)[ka]? = some ia →
      (applyFilter q hist)[kb]? = some ib → ka < kb := by
  rw [applyFilter_eq q hist hq hne]
  refine ⟨?_, ?_, ?_⟩
  · exact List.mem_map.2 ⟨⟨ia, fuzzyMatch q a⟩,
      (mem_sortDesc _ _).2 ((mem_matchesFor q hist _).2 ⟨a, hia, rfl, ha0⟩), rfl⟩
  · exact List.mem_map.2 ⟨⟨ib, fuzzyMatch q b⟩,
      (mem_sortDesc _ _).2 ((mem_matchesFor q hist _).2 ⟨b, hib, rfl, hb0⟩), rfl⟩
  · intro ka kb hka hkb
    rw [List.getElem?_map] at hka hkb
    obtain ⟨ma, hma, hmai⟩ := Option.map_eq_some'.1 hka
    obtain ⟨mb, hmb, hmbi⟩ := Option.map_eq_some'.1 hkb
    obtain ⟨hkalt, hmae⟩ := List.getElem?_eq_some.1 hma
    obtain ⟨hkblt, hmbe⟩ := List.getElem?_eq_some.1 hmb
    have hmaM : ma ∈ matchesFor q hist := by
      rw [← hmae]
      exact (mem_sortDesc _ _).1 (List.getElem_mem hkalt)
    have hmbM : mb ∈ matchesFor q hist := by
      rw [← hmbe]
      exact (mem_sortDesc _ _).1 (List.getElem_mem hkblt)
    obtain ⟨va, hva, hsa, _⟩ := (mem_matchesFor q hist ma).1 hmaM
    obtain ⟨vb, hvb, hsb, _⟩ := (mem_matchesFor q hist mb).1 hmbM
    rw [hmai] at hva
    rw [hmbi] at hvb
    rw [hia] at hva
    rw [hib] at hvb
    have hsa' : ma.score = fuzzyMatch q a := by
      rw [hsa, ← Option.some.inj hva]
    have hsb' : mb.score = fuzzyMatch q b := by
      rw [hsb, ← Option.some.inj hvb]
    by_contra hnk
    push_neg at hnk
    rcases Nat.lt_or_ge kb ka with hlt | hge
    · have hpw := List.pairwise_iff_getElem.1
        (sortDesc_pairwise (matchesFor q hist)) kb ka hkblt hkalt hlt
      rw [hmae, hmbe] at hpw
      rw [hsa', hsb'] at hpw
      omega
    · have hke : ka = kb := by omega
      rw [hke] at hma
      have hmm : ma = mb := Option.some.inj (hma.symm.trans hmb)
      rw [← hmm, hsa'] at hsb'
      omega

/-- An entry scoring below zero is dropped before the sort and never
appears in the filtered result. -/
theorem applyFilter_not_mem (q : String) (hist : List String)
    (hq : trimSpace q = q) (hne : q ≠ "")
    (j : Nat) (text : String) (hj : hist[j]? = some text)
    (hneg : fuzzyMatch q text < 0) :
    j ∉ applyFilter q hist := by
  rw [applyFilter_eq q hist hq hne]
  intro hmem
  obtain ⟨m, hm, hidx⟩ := List.mem_map.1 hmem
  obtain ⟨v, hv, hs, h0⟩ := (mem_matchesFor q hist m).1 ((mem_sortDesc _ _).1 hm)
  rw [hidx, hj] at hv
  rw [hs, ← Option.some.inj hv] at h0
  omega

end ClipMgr

namespace ClipMgr

/-! ### C2 -/

set_option maxRecDepth 8192 in
/-- C2 counterexample: for the 68-dash query, the entry consisting of two
34-dash runs separated by a space matches only as a fuzzy subsequence yet
scores 1690, strictly above the substring score 1680 of an entry that
contains the query contiguously, so `applyFilter` ranks the fuzzy-only
entry first. -/
theorem substring_outranks_fuzzy_counterexample :
    containsSub (lowerChars dashSubstringEntry) (lowerChars dashQuery) = true ∧
    containsSub (lowerChars dashFuzzyEntry) (lowerChars dashQuery) = false ∧
    fuzzyMatch dashQuery dashSubstringEntry = 1680 ∧
    fuzzyMatch dashQuery dashFuzzyEntry = 1690 ∧
    applyFilter dashQuery [dashSubstringEntry, dashFuzzyEntry] = [1, 0] := by
  decide

/-- C2 (amended): for every trimmed query of at most 67 characters, an
entry containing the query as a contiguous case-insensitive substring
scores `1000 + 10 * len(query)`, strictly above every fuzzy-only match
(whose score is at most `25 * len(query) - 10`), and is therefore ranked
strictly above it at whatever positions the two occupy in the filtered
result. -/
theorem substring_outranks_fuzzy (q a b : String) (hist : List String)
    (ia ib : Nat)
    (hq : trimSpace q = q)
    (hlen : (lowerChars q).length ≤ 67)
    (hne : ¬ (lowerChars q).isEmpty = true)
    (hsub : containsSub (lowerChars a) (lowerChars q) = true)
    (hnosub : containsSub (lowerChars b) (lowerChars q) = false)
    (hfuz : 0 ≤ fuzzyMatch q b)
    (hia : hist[ia]? = some a) (hib : hist[ib]? = some b) :
    fuzzyMatch q b < fuzzyMatch q a ∧
    ia ∈ applyFilter q hist ∧ ib ∈ applyFilter q hist ∧
    ∀ (ka kb : Nat), (applyFilter q hist)[ka]? = some ia →
      (applyFilter q hist)[kb]? = some ib → ka < kb := by
  have hstr : q ≠ "" := by
    intro he
    rw [he] at hne
    exact hne rfl
  have hA : fuzzyMatch q a = 1000 + 10 * ((lowerChars q).length : Int) :=
    fuzzyMatch_substring q a hne hsub
  have hlen' : ((lowerChars q).length : Int) ≤ 67 := by exact_mod_cast hlen
  have hlen0 : (0 : Int) ≤ ((lowerChars q).length : Int) := by positivity
  have hgt : fuzzyMatch q b < fuzzyMatch q a := by
    rcases fuzzyMatch_fuzzy_le q b hne hnosub with h | h
    · rw [hA, h]
      omega
    · rw [hA]
      omega
  have hA0 : 0 ≤ fuzzyMatch q a := by
    rw [hA]
    omega
  obtain ⟨m1, m2, m3⟩ := applyFilter_ranks q hist hq hstr ia ib a b hia hib
    hA0 hfuz hgt
  exact ⟨hgt, m1, m2, m3⟩

/-- Witness for `substring_outranks_fuzzy`: the specification's own
example, query `"foo"` against entries `["xfooy", "f_o_o"]`. -/
theorem substring_outranks_fuzzy_witness :
    containsSub (lowerChars "xfooy") (lowerChars "foo") = true ∧
    containsSub (lowerChars "f_o_o") (lowerChars "foo") = false ∧
    fuzzyMatch "foo" "f_o_o" < fuzzyMatch "foo" "xfooy" ∧
    0 ∈ applyFilter "foo" ["xfooy", "f_o_o"] ∧
    1 ∈ applyFilter "foo" ["xfooy", "f_o_o"] := by
  have h := substring_outranks_fuzzy "foo" "xfooy" "f_o_o"
    ["xfooy", "f_o_o"] 0 1 (by decide) (by decide) (by decide) (by decide)
    (by decide) (by decide) (by decide) (by decide)
  exact ⟨by decide, by decide, h.1, h.2.1, h.2.2.1⟩

/-! ### C6 -/

/-- C6 counterexample: the claim's scoring formula awards the consecutive
bonus only when a preceding text character was consumed, so it scores
query "ab" against text "axb" as 20 (15 at position 0, 5 for the final
b); the implementation initializes `lastMatchIdx` to -1, so the match at
position 0 also passes the `lastMatchIdx == i-1` test and the code
returns 30. -/
theorem fuzzy_scoring_counterexample :
    fuzzyMatch "ab" "axb" = 30 ∧ specFuzzyScore "ab" "axb" = 20 ∧
    fuzzyMatch "ab" "axb" ≠ specFuzzyScore "ab" "axb" := by decide

/-- C6 (amended): the implementation's fuzzy score equals the
specification's walk amended so that a match at text position 0 also
receives the consecutive-match bonus; and an entry whose text does not
contain all query characters as a subsequence scores -1 and is excluded
from the ranked result entirely. -/
theorem fuzzy_scoring (pattern text : String) :
    fuzzyMatch pattern text = specFuzzyScoreAmended pattern text ∧
    (¬ (lowerChars pattern).Sublist (lowerChars text) →
      fuzzyMatch pattern text = -1) ∧
    ∀ (hist : List String) (j : Nat), trimSpace pattern = pattern →
      hist[j]? = some text →
      ¬ (lowerChars pattern).Sublist (lowerChars text) →
      j ∉ applyFilter pattern hist := by
  refine ⟨fuzzyMatch_eq_specAmended pattern text,
    fun h => fuzzyMatch_notSublist pattern text h, ?_⟩
  intro hist j hq hj hns
  have hne : pattern ≠ "" := by
    intro he
    apply hns
    rw [he]
    exact List.nil_sublist _
  exact applyFilter_not_mem pattern hist hq hne j text hj
    (by rw [fuzzyMatch_notSublist pattern text hns]; norm_num)

/-- Witness for `fuzzy_scoring`: the specification's own exclusion
example, query "xyz" against entry "abc". -/
theorem fuzzy_scoring_witness :
    fuzzyMatch "xyz" "abc" = specFuzzyScoreAmended "xyz" "abc" ∧
    fuzzyMatch "xyz" "abc" = -1 ∧
    0 ∉ applyFilter "xyz" ["abc"] :=
  ⟨(fuzzy_scoring "xyz" "abc").1,
   (fuzzy_scoring "xyz" "abc").2.1 (by decide),
   (fuzzy_scoring "xyz" "abc").2.2 ["abc"] 0 (by decide) (by decide) (by decide)⟩

end ClipMgr
